import Mathlib

/-!
Shallow embedding of the Brand Query Classification Engine
(`utils/parser.js` and `services/brandClassifier.js`).

Strings are modelled as `List Char` in the core functions; the public entry
points (`tokenizeArticle`, `parseRule`, `evaluateRule`, `classifyText`) take
`String` and immediately pass `String.data`, mirroring the JavaScript
signatures.  JavaScript `null` for an absent AST is modelled by the dedicated
constructor `Ast.null`, so every `if (!node)` guard of the source becomes a
`.null` case.  Unicode case mapping and NFD decomposition are modelled on the
Basic Latin fragment (`Char.toLower` plus removal of the combining-mark range
U+0300..U+036F); the later character-class replacement confines every
character to `[a-z0-9@#]` or whitespace in both the source and the model, and
all concrete inputs appearing in theorems below are ASCII, where the model
agrees with `String.prototype.toLowerCase` / `normalize("NFD")` exactly.
-/

namespace BrandQuery

/-- The JavaScript `\s` character class (also used by `String.prototype.trim`),
expressed on code points. -/
def jsWhitespace (c : Char) : Bool :=
  c.toNat = 32 || c.toNat = 9 || c.toNat = 10 || c.toNat = 11 || c.toNat = 12 ||
  c.toNat = 13 || c.toNat = 0xa0 || c.toNat = 0x1680 ||
  (0x2000 ≤ c.toNat && c.toNat ≤ 0x200a) || c.toNat = 0x2028 || c.toNat = 0x2029 ||
  c.toNat = 0x202f || c.toNat = 0x205f || c.toNat = 0x3000 || c.toNat = 0xfeff

/-- A character kept by the cleaning regex other than whitespace:
lowercase alphanumeric, `@`, or `#` (the class `[a-z0-9@#]`). -/
def charOK (c : Char) : Bool :=
  (97 ≤ c.toNat && c.toNat ≤ 122) || (48 ≤ c.toNat && c.toNat ≤ 57) ||
  c.toNat = 64 || c.toNat = 35

/-- A combining mark removed after NFD decomposition (`[̀-ͯ]`). -/
def isCombining (c : Char) : Bool :=
  0x300 ≤ c.toNat && c.toNat ≤ 0x36f

/-- One character of `replace(/[^a-z0-9@#\s]+/g, " ")`.  The source replaces a
whole run by a single space; replacing each character separately is equivalent
because the following `replace(/\s+/g, " ")` collapses the resulting spaces. -/
def cleanChar (c : Char) : Char :=
  if charOK c || jsWhitespace c then c else ' '

/-- `replace(/\s+/g, " ")`: collapse every whitespace run to a single space. -/
def collapseWs : List Char → List Char
  | [] => []
  | [c] => [if jsWhitespace c then ' ' else c]
  | c :: d :: cs =>
    if jsWhitespace c && jsWhitespace d then collapseWs (d :: cs)
    else (if jsWhitespace c then ' ' else c) :: collapseWs (d :: cs)

/-- `String.prototype.trim`: drop whitespace from both ends. -/
def jsTrimL (l : List Char) : List Char :=
  ((l.dropWhile jsWhitespace).reverse.dropWhile jsWhitespace).reverse

/-- `normalizeText` from the source: lowercase, NFD + strip combining marks,
replace characters outside `[a-z0-9@#\s]` by spaces, collapse whitespace,
trim.  The `if (!text)` guard is the empty-list case. -/
def normalizeText (l : List Char) : List Char :=
  if l = [] then []
  else
    jsTrimL (collapseWs (((l.map Char.toLower).filter
      (fun c => !(isCombining c))).map cleanChar))

/-- `String.prototype.split(" ")` on a list of characters. -/
def splitCh (sep : Char) : List Char → List (List Char)
  | [] => [[]]
  | c :: cs =>
    let r := splitCh sep cs
    if c = sep then [] :: r
    else
      match r with
      | [] => [[c]]
      | p :: ps => (c :: p) :: ps

/-- Is the character `@` or `#`? -/
def isMarkCh (c : Char) : Bool :=
  decide (c = '@') || decide (c = '#')

/-- `token.replace(/[@#]+$/, '')`: drop the maximal trailing run of `@`/`#`.
Written as a left recursion (a character is dropped exactly when everything
after it has been dropped and it is itself a mark), which is equivalent to
removing the trailing run in one step. -/
def stripTrail : List Char → List Char
  | [] => []
  | c :: cs =>
    let r := stripTrail cs
    if r = [] ∧ isMarkCh c then [] else c :: r

/-- `token.startsWith('@') || token.startsWith('#')`. -/
def hasMark : List Char → Bool
  | [] => false
  | c :: _ => isMarkCh c

/-- The per-token cleanup inside `tokenizeArticle` / `tokenizePhrase`. -/
def cleanupTok (t : List Char) : List Char :=
  if t = ['@'] ∨ t = ['#'] then []
  else if hasMark t = true ∧ 1 < t.length then t
  else stripTrail t

/-- Shared body of `tokenizeArticle` and `tokenizePhrase` (the source
duplicates the code verbatim in the two functions). -/
def tokenizeArticleCore (l : List Char) : List (List Char) :=
  let n := normalizeText l
  if n = [] then []
  else ((splitCh ' ' n).map cleanupTok).filter (fun t => !t.isEmpty)

/-- `tokenizeArticle(text)`. -/
def tokenizeArticle (text : String) : List (List Char) :=
  tokenizeArticleCore text.data

/-- `tokenizePhrase(phrase)`; its body is identical to `tokenizeArticle`. -/
def tokenizePhrase (l : List Char) : List (List Char) :=
  tokenizeArticleCore l

/-- `matchTerm(value, tokens)`: positions whose token equals the term, or the
term with an `@`/`#` mark prepended when the term itself carries no mark. -/
def matchTerm (value : List Char) (tokens : List (List Char)) : List (Nat × Nat) :=
  tokens.enum.filterMap fun p =>
    if hasMark value then
      if p.2 = value then some (p.1, p.1 + 1) else none
    else
      if p.2 = value ∨ p.2 = '@' :: value ∨ p.2 = '#' :: value then
        some (p.1, p.1 + 1)
      else none

/-- `matchWildcard(prefix, tokens)`. -/
def matchWildcard (pre : List Char) (tokens : List (List Char)) : List (Nat × Nat) :=
  tokens.enum.filterMap fun p =>
    if hasMark pre then
      if pre.isPrefixOf p.2 then some (p.1, p.1 + 1) else none
    else
      if pre.isPrefixOf p.2 ∨ ('@' :: pre).isPrefixOf p.2 ∨ ('#' :: pre).isPrefixOf p.2 then
        some (p.1, p.1 + 1)
      else none

/-- The helper `tokenMatches` inside `matchPhrase`. -/
def tokenMatches (phraseToken textToken : List Char) : Bool :=
  if hasMark phraseToken then
    decide (textToken = phraseToken)
  else
    decide (textToken = phraseToken ∨ textToken = '@' :: phraseToken ∨
      textToken = '#' :: phraseToken)

/-- Does the phrase match at position `i`? -/
def phraseAt (ptoks : List (List Char)) (tokens : List (List Char)) (i : Nat) : Bool :=
  ptoks.enum.all fun q =>
    match tokens.get? (i + q.1) with
    | some t => tokenMatches q.2 t
    | none => false

/-- `matchPhrase(phraseTokens, tokens)`.  The loop bound
`i <= tokens.length - phraseTokens.length` becomes
`i < tokens.length + 1 - phraseTokens.length` (zero iterations when the phrase
is longer than the article, as with the negative JavaScript bound). -/
def matchPhrase (ptoks : List (List Char)) (tokens : List (List Char)) : List (Nat × Nat) :=
  if ptoks = [] then []
  else
    (List.range (tokens.length + 1 - ptoks.length)).filterMap fun i =>
      if phraseAt ptoks tokens i then some (i, i + ptoks.length) else none

/-- `spanDistance(a, b)`. -/
def spanDistance (a b : Nat × Nat) : Nat :=
  if a.2 ≤ b.1 then b.1 - a.2
  else if b.2 ≤ a.1 then a.1 - b.2
  else 0

/-- `combineNearSpans(leftSpans, rightSpans, distance)`. -/
def combineNearSpans (ls rs : List (Nat × Nat)) (d : Nat) : List (Nat × Nat) :=
  ls.flatMap fun l =>
    rs.filterMap fun r =>
      if spanDistance l r ≤ d then some (min l.1 r.1, max l.2 r.2) else none

/-- The query AST.  `Ast.null` models the JavaScript `null` returned by
`parsePrimary` on a non-primary token and accepted by the evaluator's
`if (!node)` guards. -/
inductive Ast where
  | null
  | term (value : List Char)
  | wildcard (pre : List Char)
  | phrase (ptoks : List (List Char))
  | not (child : Ast)
  | and (left right : Ast)
  | or (left right : Ast)
  | near (distance : Nat) (left right : Ast)
deriving DecidableEq, Repr

/-- Result record of `evaluatePositive`. -/
structure EvalResult where
  matched : Bool
  spans : List (Nat × Nat)
  hasPositive : Bool
deriving DecidableEq, Repr

/-- `evaluatePositive(node, tokens)`.  `matched: spans.length > 0` is written
`!spans.isEmpty`. -/
def evaluatePositive (node : Ast) (tokens : List (List Char)) : EvalResult :=
  match node with
  | .null => ⟨true, [], false⟩
  | .term v =>
    let s := matchTerm v tokens
    ⟨!s.isEmpty, s, true⟩
  | .wildcard p =>
    let s := matchWildcard p tokens
    ⟨!s.isEmpty, s, true⟩
  | .phrase q =>
    let s := matchPhrase q tokens
    ⟨!s.isEmpty, s, true⟩
  | .not c =>
    let ch := evaluatePositive c tokens
    ⟨true, [], ch.hasPositive⟩
  | .and l r =>
    let L := evaluatePositive l tokens
    let R := evaluatePositive r tokens
    ⟨L.matched && R.matched, L.spans ++ R.spans, L.hasPositive || R.hasPositive⟩
  | .or l r =>
    let L := evaluatePositive l tokens
    let R := evaluatePositive r tokens
    ⟨L.matched || R.matched,
      (if L.matched then L.spans else []) ++ (if R.matched then R.spans else []),
      L.hasPositive || R.hasPositive⟩
  | .near d l r =>
    let L := evaluatePositive l tokens
    let R := evaluatePositive r tokens
    let s := if L.matched && R.matched then combineNearSpans L.spans R.spans d else []
    ⟨!s.isEmpty, s, true⟩

/-- `checkForbidden(node, tokens)`. -/
def checkForbidden (node : Ast) (tokens : List (List Char)) : Bool :=
  match node with
  | .null => false
  | .not c => (evaluatePositive c tokens).matched
  | .and l r => checkForbidden l tokens || checkForbidden r tokens
  | .or l r => checkForbidden l tokens || checkForbidden r tokens
  | .near _ l r => checkForbidden l tokens || checkForbidden r tokens
  | _ => false

/-- The comparator `(a, b) => a[0] - b[0] || a[1] - b[1]` as a total order. -/
def spanLe (a b : Nat × Nat) : Bool :=
  a.1 < b.1 || (a.1 = b.1 && a.2 ≤ b.2)

def insertSpan (s : Nat × Nat) : List (Nat × Nat) → List (Nat × Nat)
  | [] => [s]
  | t :: ts => if spanLe s t then s :: t :: ts else t :: insertSpan s ts

/-- `spans.slice().sort(comparator)`.  Elements tied under the comparator are
equal pairs, so every correct sort produces the same list; an insertion sort
is used here. -/
def sortSpans : List (Nat × Nat) → List (Nat × Nat)
  | [] => []
  | s :: ts => insertSpan s (sortSpans ts)

/-- The merge loop of `mergeSpans` (the mutable `last` element is threaded
explicitly). -/
def mergeLoop : (Nat × Nat) → List (Nat × Nat) → List (Nat × Nat)
  | last, [] => [last]
  | last, c :: rest =>
    if c.1 ≤ last.2 then mergeLoop (last.1, max last.2 c.2) rest
    else last :: mergeLoop c rest

/-- `mergeSpans(spans)`. -/
def mergeSpans (spans : List (Nat × Nat)) : List (Nat × Nat) :=
  match sortSpans spans with
  | [] => []
  | s :: rest => mergeLoop s rest

/-- Result record of `evaluateRule`. -/
structure RuleResult where
  matched : Bool
  spans : List (Nat × Nat)
deriving DecidableEq, Repr

/-- `evaluateRule(ast, text)`. -/
def evaluateRule (ast : Ast) (text : String) : RuleResult :=
  let tokens := tokenizeArticle text
  let forbids := checkForbidden ast tokens
  let positive := evaluatePositive ast tokens
  if forbids then ⟨false, []⟩
  else if positive.hasPositive then
    ⟨positive.matched, if positive.matched then mergeSpans positive.spans else []⟩
  else ⟨true, []⟩

/-- Lexer tokens of `tokenizeQuery`. -/
inductive QTok where
  | lparen
  | rparen
  | qand
  | qor
  | qnot
  | near (distance : Nat)
  | nearWord
  | phrase (value : List Char)
  | term (value : List Char)
deriving DecidableEq, Repr

/-- The quote characters `"` and `'`. -/
def quoteCh : Char := Char.ofNat 34

def aposCh : Char := Char.ofNat 39

/-- A character that continues a bare run: anything but `[\s()"']`. -/
def isBareChar (c : Char) : Bool :=
  !(jsWhitespace c || decide (c = '(') || decide (c = ')') ||
    decide (c = quoteCh) || decide (c = aposCh))

/-- A decimal digit (`\d`). -/
def isDigitCh (c : Char) : Bool :=
  48 ≤ c.toNat && c.toNat ≤ 57

/-- `parseInt(s, 10)` on a digit string. -/
def parseDigits (ds : List Char) : Nat :=
  ds.foldl (fun a c => a * 10 + (c.toNat - 48)) 0

/-- Classification of a completed bare run.  The regex `/^NEAR\/\d+$/i` is
modelled as: the first five characters uppercase to `NEAR/` and the remainder
is a non-empty digit string (`/` and digits are fixed points of `toUpper`, so
applying `toUpper` only to the first five characters is equivalent).
`parseInt(buf.split("/")[1], 10)` is `parseDigits` of that remainder. -/
def classifyTok (buf : List Char) : QTok :=
  let u := buf.map Char.toUpper
  if u = "AND".data then .qand
  else if u = "OR".data then .qor
  else if u = "NOT".data then .qnot
  else if (buf.take 5).map Char.toUpper = "NEAR/".data ∧
      (buf.drop 5) ≠ [] ∧ (buf.drop 5).all isDigitCh then
    .near (parseDigits (buf.drop 5))
  else if u = "NEAR".data then .nearWord
  else .term buf

/-- Character scanner of `tokenizeQuery`.  One fuel unit is spent per emitted
token or skipped whitespace character; since every step consumes at least one
character, fuel `l.length + 1` (supplied by `tokenizeQuery`) never runs out,
and the fuel-exhausted error is unreachable from `tokenizeQuery`. -/
def tokQ : Nat → List Char → Except String (List QTok)
  | _, [] => .ok []
  | 0, _ :: _ => .error "lexer fuel exhausted"
  | f + 1, c :: cs =>
    if jsWhitespace c then tokQ f cs
    else if c = '(' then
      match tokQ f cs with
      | .error e => .error e
      | .ok ts => .ok (.lparen :: ts)
    else if c = ')' then
      match tokQ f cs with
      | .error e => .error e
      | .ok ts => .ok (.rparen :: ts)
    else if c = quoteCh ∨ c = aposCh then
      match cs.dropWhile (fun x => x != c) with
      | [] => .error "Unterminated quoted phrase in query"
      | _ :: rest2 =>
        match tokQ f rest2 with
        | .error e => .error e
        | .ok ts => .ok (.phrase (cs.takeWhile (fun x => x != c)) :: ts)
    else
      match tokQ f ((c :: cs).dropWhile isBareChar) with
      | .error e => .error e
      | .ok ts => .ok (classifyTok ((c :: cs).takeWhile isBareChar) :: ts)

/-- `tokenizeQuery(query)`. -/
def tokenizeQuery (query : String) : Except String (List QTok) :=
  tokQ (query.data.length + 1) query.data

/-- The regex `/^\/(\d+)$/` tested against a bare term's raw value inside
`parseNear`. -/
def isSlashDigits (v : List Char) : Bool :=
  match v with
  | '/' :: ds => !ds.isEmpty && ds.all isDigitCh
  | _ => false

/-- The `NEAR_WORD` two-token peek inside `parseNear`: if the next token is a
bare `TERM` matching `/^\/(\d+)$/`, consume it and use its digits as the
distance, else default to 9. -/
def nearWordDistance (rest : List QTok) : Nat × List QTok :=
  match rest with
  | .term v :: rest2 =>
    if isSlashDigits v then (parseDigits (v.drop 1), rest2) else (9, rest)
  | _ => (9, rest)

/- Recursive-descent parser of `parseRule`, with the `while` loops of the
source written as the `...Loop` functions.  The parser state `pos` becomes the
unconsumed token list; `throw` becomes `Except.error`.  Fuel decreases on each
call; `parseRule` supplies enough for the error to be unreachable, and no
theorem below depends on the exact amount. -/
mutual

def parsePrimary : Nat → List QTok → Except String (Ast × List QTok)
  | 0, _ => .error "parser fuel exhausted"
  | _ + 1, [] => .ok (.null, [])
  | f + 1, t :: rest =>
    match t with
    | .lparen =>
      match parseOr f rest with
      | .error e => .error e
      | .ok (e, ts1) =>
        match ts1 with
        | .rparen :: ts2 => .ok (e, ts2)
        | _ :: _ => .error "Expected RPAREN"
        | [] => .error "Expected RPAREN but found EOF"
    | .phrase v => .ok (.phrase (tokenizePhrase v), rest)
    | .term raw =>
      if raw.getLast? = some '*' then
        .ok (.wildcard (normalizeText raw.dropLast), rest)
      else
        .ok (.term (normalizeText raw), rest)
    | _ => .ok (.null, t :: rest)

def parseUnary : Nat → List QTok → Except String (Ast × List QTok)
  | 0, _ => .error "parser fuel exhausted"
  | f + 1, .qnot :: rest =>
    match parseUnary f rest with
    | .error e => .error e
    | .ok (child, ts1) =>
      if child = .null then .error "NOT must be followed by an expression"
      else .ok (.not child, ts1)
  | f + 1, ts => parsePrimary f ts

def parseNear : Nat → List QTok → Except String (Ast × List QTok)
  | 0, _ => .error "parser fuel exhausted"
  | f + 1, ts =>
    match parseUnary f ts with
    | .error e => .error e
    | .ok (n, ts1) => parseNearLoop f n ts1

def parseNearLoop : Nat → Ast → List QTok → Except String (Ast × List QTok)
  | 0, _, _ => .error "parser fuel exhausted"
  | f + 1, node, .near d :: rest =>
    match parseUnary f rest with
    | .error e => .error e
    | .ok (r, ts2) =>
      if r = .null then .error "NEAR must have right operand"
      else parseNearLoop f (.near d node r) ts2
  | f + 1, node, .nearWord :: rest =>
    let s := nearWordDistance rest
    match parseUnary f s.2 with
    | .error e => .error e
    | .ok (r, ts2) =>
      if r = .null then .error "NEAR must have right operand"
      else parseNearLoop f (.near s.1 node r) ts2
  | _ + 1, node, ts => .ok (node, ts)

def parseAnd : Nat → List QTok → Except String (Ast × List QTok)
  | 0, _ => .error "parser fuel exhausted"
  | f + 1, ts =>
    match parseNear f ts with
    | .error e => .error e
    | .ok (n, ts1) => parseAndLoop f n ts1

def parseAndLoop : Nat → Ast → List QTok → Except String (Ast × List QTok)
  | 0, _, _ => .error "parser fuel exhausted"
  | f + 1, node, .qand :: rest =>
    match parseNear f rest with
    | .error e => .error e
    | .ok (r, ts2) =>
      if r = .null then .error "AND must have right operand"
      else parseAndLoop f (.and node r) ts2
  | f + 1, node, .qnot :: rest =>
    -- Implicit AND before NOT: the NOT token is not consumed here.
    match parseNear f (.qnot :: rest) with
    | .error e => .error e
    | .ok (r, ts2) =>
      if r = .null then .error "AND must have right operand"
      else parseAndLoop f (.and node r) ts2
  | _ + 1, node, ts => .ok (node, ts)

def parseOr : Nat → List QTok → Except String (Ast × List QTok)
  | 0, _ => .error "parser fuel exhausted"
  | f + 1, ts =>
    match parseAnd f ts with
    | .error e => .error e
    | .ok (n, ts1) => parseOrLoop f n ts1

def parseOrLoop : Nat → Ast → List QTok → Except String (Ast × List QTok)
  | 0, _, _ => .error "parser fuel exhausted"
  | f + 1, node, .qor :: rest =>
    match parseAnd f rest with
    | .error e => .error e
    | .ok (r, ts2) =>
      if r = .null then .error "OR must have right operand"
      else parseOrLoop f (.or node r) ts2
  | _ + 1, node, ts => .ok (node, ts)

end

/-- `parseRule(query)`.  The final `pos !== tokens.length` check is the
leftover-token test. -/
def parseRule (query : String) : Except String Ast :=
  match tokenizeQuery query with
  | .error e => .error e
  | .ok ts =>
    match parseOr (8 * (ts.length + 2)) ts with
    | .error e => .error e
    | .ok (ast, rest) =>
      if rest = [] then .ok ast else .error "Unexpected tokens remaining in query"

/-- A compiled catalog entry of `brandClassifier.js` (`brandQueries[i]`);
`queryText` is omitted as no claim mentions it. -/
structure BrandRule where
  topic : String
  subTopic : String
  queryName : String
  internalId : String
  ast : Ast
deriving DecidableEq, Repr

/-- The classification projection `{topic, subTopic, queryName, internalId}`. -/
structure Classification where
  topic : String
  subTopic : String
  queryName : String
  internalId : String
deriving DecidableEq, Repr

/-- Result of `classifyText`. -/
structure ClassifyResult where
  matched : Bool
  classification : Option Classification
deriving DecidableEq, Repr

/-- The projection built on a match inside `classifyText`. -/
def mkClassification (q : BrandRule) : Classification :=
  ⟨q.topic, q.subTopic, q.queryName, q.internalId⟩

/-- The `for (const query of brandQueries)` loop of `classifyText`, returning
on the first rule whose evaluation matches.  `evaluateRule` on the closed
`Ast` type is total, so the source's per-rule `try/catch` has no error case to
model. -/
def classifyLoop (cat : List BrandRule) (text : String) : ClassifyResult :=
  match cat with
  | [] => ⟨false, none⟩
  | q :: rest =>
    if (evaluateRule q.ast text).matched then ⟨true, some (mkClassification q)⟩
    else classifyLoop rest text

/-- `classifyText(text)`.  The module state (`isInitialized`, `brandQueries`)
is passed explicitly.  The source guard
`!text || typeof text !== 'string' || text.trim() === ''` becomes the
empty-or-whitespace test (the argument is typed as a string here). -/
def classifyText (isInitialized : Bool) (brandQueries : List BrandRule)
    (text : String) : ClassifyResult :=
  if isInitialized = false then ⟨false, none⟩
  else if text.data = [] ∨ jsTrimL text.data = [] then ⟨false, none⟩
  else classifyLoop brandQueries text

/-- Instrumentation of `classifyLoop`: how many rules are evaluated by the
loop (each iteration evaluates exactly one rule before deciding). -/
def countLoop (cat : List BrandRule) (text : String) : Nat :=
  match cat with
  | [] => 0
  | q :: rest =>
    1 + (if (evaluateRule q.ast text).matched then 0 else countLoop rest text)

/-- Instrumentation of `classifyText` with the identical control flow: the
number of `evaluateRule` calls it performs. -/
def classifyEvalCount (isInitialized : Bool) (brandQueries : List BrandRule)
    (text : String) : Nat :=
  if isInitialized = false then 0
  else if text.data = [] ∨ jsTrimL text.data = [] then 0
  else countLoop brandQueries text

/-! Claim-support definitions: structural views of an AST used to state the
claims, all read off the shape of `checkForbidden` and `evaluatePositive`. -/

/-- Children of the `NOT` nodes reachable from the root through `AND`, `OR`
and `NEAR` nodes only — exactly the nodes whose positive evaluation
`checkForbidden` consults. -/
def topNotChildren : Ast → List Ast
  | .not c => [c]
  | .and l r => topNotChildren l ++ topNotChildren r
  | .or l r => topNotChildren l ++ topNotChildren r
  | .near _ l r => topNotChildren l ++ topNotChildren r
  | _ => []

/-- Every node of an AST, the root included. -/
def subtrees : Ast → List Ast
  | .null => [.null]
  | .term v => [.term v]
  | .wildcard p => [.wildcard p]
  | .phrase q => [.phrase q]
  | .not c => .not c :: subtrees c
  | .and l r => .and l r :: (subtrees l ++ subtrees r)
  | .or l r => .or l r :: (subtrees l ++ subtrees r)
  | .near d l r => .near d l r :: (subtrees l ++ subtrees r)

/-- Children of every `NOT` node anywhere in the tree, including `NOT` nodes
nested inside other `NOT` children. -/
def allNotChildren : Ast → List Ast
  | .not c => c :: allNotChildren c
  | .and l r => allNotChildren l ++ allNotChildren r
  | .or l r => allNotChildren l ++ allNotChildren r
  | .near _ l r => allNotChildren l ++ allNotChildren r
  | _ => []

/-- An AST whose top-level structure is `AND`/`OR` combinations of `NOT`
subtrees (leaves and `NEAR` nodes occur only inside `NOT` children). -/
def negOnly : Ast → Bool
  | .not _ => true
  | .and l r => negOnly l && negOnly r
  | .or l r => negOnly l && negOnly r
  | _ => false

/-- Does some `TERM`/`WILDCARD`/`PHRASE` leaf lie outside every `NOT`?  Its
negation is the hypothesis of claim C4 ("all leaves lie under NOT nodes"). -/
def hasBareLeaf : Ast → Bool
  | .null => false
  | .term _ => true
  | .wildcard _ => true
  | .phrase _ => true
  | .not _ => false
  | .and l r => hasBareLeaf l || hasBareLeaf r
  | .or l r => hasBareLeaf l || hasBareLeaf r
  | .near _ l r => hasBareLeaf l || hasBareLeaf r

/-- The `pre` fields of all `WILDCARD` nodes of an AST. -/
def wildcardPres : Ast → List (List Char)
  | .wildcard p => [p]
  | .not c => wildcardPres c
  | .and l r => wildcardPres l ++ wildcardPres r
  | .or l r => wildcardPres l ++ wildcardPres r
  | .near _ l r => wildcardPres l ++ wildcardPres r
  | _ => []

/-- A lowercase ASCII alphanumeric character (`[a-z0-9]`). -/
def isLowerAlnum (c : Char) : Bool :=
  (97 ≤ c.toNat && c.toNat ≤ 122) || (48 ≤ c.toNat && c.toNat ≤ 57)

/-- The token shape asserted by claim C2: a non-empty string of lowercase
alphanumerics, optionally preceded by exactly one leading `@` or `#`. -/
def claimTokenOK (t : List Char) : Bool :=
  match t with
  | [] => false
  | c :: rest =>
    if isMarkCh c then !rest.isEmpty && rest.all isLowerAlnum
    else (c :: rest).all isLowerAlnum

/-- The wildcard-prefix invariant threaded through the parser: every
`WILDCARD` prefix is an output of `normalizeText`. -/
def WInv (a : Ast) : Prop :=
  ∀ p ∈ wildcardPres a, ∃ r, p = normalizeText r

end BrandQuery

deriving instance DecidableEq for Except

namespace BrandQuery

/-! ## Helper lemmas -/

theorem combine_nil_left (rs : List (Nat × Nat)) (d : Nat) :
    combineNearSpans [] rs d = [] := rfl

theorem combine_nil_right (ls : List (Nat × Nat)) (d : Nat) :
    combineNearSpans ls [] d = [] := by
  simp [combineNearSpans]

theorem combine_ne_nil_iff (ls rs : List (Nat × Nat)) (d : Nat) :
    combineNearSpans ls rs d ≠ [] ↔
      ∃ l ∈ ls, ∃ r ∈ rs, spanDistance l r ≤ d := by
  constructor
  · intro h
    obtain ⟨x, hx⟩ := List.exists_mem_of_ne_nil _ h
    obtain ⟨l, hl, hx2⟩ := List.mem_flatMap.mp hx
    obtain ⟨r, hr, hfr⟩ := List.mem_filterMap.mp hx2
    refine ⟨l, hl, r, hr, ?_⟩
    by_cases hd : spanDistance l r ≤ d
    · exact hd
    · simp [hd] at hfr
  · rintro ⟨l, hl, r, hr, hd⟩
    apply List.ne_nil_of_mem (a := (min l.1 r.1, max l.2 r.2))
    exact List.mem_flatMap.mpr ⟨l, hl, List.mem_filterMap.mpr ⟨r, hr, by simp [hd]⟩⟩

theorem mergeSpans_nil : mergeSpans [] = [] := rfl

theorem checkForbidden_eq_any (a : Ast) (tokens : List (List Char)) :
    checkForbidden a tokens =
      (topNotChildren a).any fun c => (evaluatePositive c tokens).matched := by
  induction a with
  | null => rfl
  | term v => rfl
  | wildcard p => rfl
  | phrase q => rfl
  | not c ih => simp [checkForbidden, topNotChildren]
  | and l r ihl ihr =>
    simp [checkForbidden, topNotChildren, List.any_append, ihl, ihr]
  | or l r ihl ihr =>
    simp [checkForbidden, topNotChildren, List.any_append, ihl, ihr]
  | near d l r ihl ihr =>
    simp [checkForbidden, topNotChildren, List.any_append, ihl, ihr]

theorem negOnly_positive (a : Ast) (tokens : List (List Char))
    (h : negOnly a = true) :
    (evaluatePositive a tokens).matched = true ∧
    (evaluatePositive a tokens).spans = [] := by
  induction a with
  | null => simp [negOnly] at h
  | term v => simp [negOnly] at h
  | wildcard p => simp [negOnly] at h
  | phrase q => simp [negOnly] at h
  | not c ih => simp [evaluatePositive]
  | and l r ihl ihr =>
    rw [negOnly, Bool.and_eq_true] at h
    obtain ⟨h1, h2⟩ := h
    simp [evaluatePositive, (ihl h1).1, (ihl h1).2, (ihr h2).1, (ihr h2).2]
  | or l r ihl ihr =>
    rw [negOnly, Bool.and_eq_true] at h
    obtain ⟨h1, h2⟩ := h
    simp [evaluatePositive, (ihl h1).1, (ihl h1).2, (ihr h2).1, (ihr h2).2]
  | near d l r ihl ihr => simp [negOnly] at h

/-! ## Claim C1 -/

/-- C1 (amended): if any `NOT(c)` node reachable from the root through `AND`,
`OR` and `NEAR` nodes only (that is, not nested inside another `NOT`'s child)
has a child `c` with a positive match on the article's token vector, then
`evaluateRule` returns `{matched:false, spans:[]}`. -/
theorem c1_forbidden_global_amended (a : Ast) (text : String) (c : Ast)
    (hmem : c ∈ topNotChildren a)
    (hmatch : (evaluatePositive c (tokenizeArticle text)).matched = true) :
    evaluateRule a text = ⟨false, []⟩ := by
  have hf : checkForbidden a (tokenizeArticle text) = true := by
    rw [checkForbidden_eq_any]
    exact List.any_eq_true.mpr ⟨c, hmem, hmatch⟩
  simp [evaluateRule, hf]

/-- C1 counterexample: in `NOT(AND(NOT(a), b))` evaluated on the article
`"a"`, the inner node `NOT(a)` is a `NOT` whose child has a positive match,
yet `evaluateRule` returns `{matched:true, spans:[]}`, not
`{matched:false, spans:[]}` — `checkForbidden` never looks inside the child
of another `NOT`. -/
theorem c1_counterexample :
    Ast.not (Ast.term ['a']) ∈
      subtrees (Ast.not (Ast.and (Ast.not (Ast.term ['a'])) (Ast.term ['b']))) ∧
    (evaluatePositive (Ast.term ['a']) (tokenizeArticle "a")).matched = true ∧
    evaluateRule (Ast.not (Ast.and (Ast.not (Ast.term ['a'])) (Ast.term ['b']))) "a" =
      ⟨true, []⟩ := by
  decide

theorem c1_witness :
    Ast.term ['a'] ∈ topNotChildren (Ast.and (Ast.term ['x']) (Ast.not (Ast.term ['a']))) ∧
    (evaluatePositive (Ast.term ['a']) (tokenizeArticle "a")).matched = true ∧
    evaluateRule (Ast.and (Ast.term ['x']) (Ast.not (Ast.term ['a']))) "a" = ⟨false, []⟩ :=
  ⟨by decide, by decide,
    c1_forbidden_global_amended _ "a" (Ast.term ['a']) (by decide) (by decide)⟩

/-! ## Claim C4 -/

/-- C4 (amended): for every AST whose top-level structure is an `AND`/`OR`
combination of `NOT` subtrees (leaves and `NEAR` nodes occurring only inside
`NOT` children), `evaluateRule` returns `{matched:false, spans:[]}` when some
such `NOT` node's child has a positive match and `{matched:true, spans:[]}`
otherwise.  An AST with a `NEAR` node outside every `NOT` is not
negation-only for the evaluator even if all its leaves lie under `NOT`s. -/
theorem c4_negation_only_amended (a : Ast) (text : String)
    (h : negOnly a = true) :
    evaluateRule a text =
      (if (topNotChildren a).any
          (fun c => (evaluatePositive c (tokenizeArticle text)).matched)
       then ⟨false, []⟩ else ⟨true, []⟩) := by
  have hpos := negOnly_positive a (tokenizeArticle text) h
  have hca := checkForbidden_eq_any a (tokenizeArticle text)
  cases hf : (topNotChildren a).any
      (fun c => (evaluatePositive c (tokenizeArticle text)).matched) with
  | true =>
    rw [hf] at hca
    simp [evaluateRule, hca]
  | false =>
    rw [hf] at hca
    simp [evaluateRule, hca, hpos.1, hpos.2, mergeSpans_nil]

/-- C4 counterexample: `NEAR(9, NOT(a), NOT(b))` on the article `"x"` has all
of its leaves under `NOT` nodes and no `NOT`'s inner subtree matches, yet
`evaluateRule` returns `{matched:false, spans:[]}` instead of the claimed
`{matched:true, spans:[]}` (the `NEAR` combination of the empty span lists is
empty, and `NEAR` always counts as a positive requirement). -/
theorem c4_counterexample :
    hasBareLeaf (Ast.near 9 (Ast.not (Ast.term ['a'])) (Ast.not (Ast.term ['b']))) = false ∧
    ((allNotChildren (Ast.near 9 (Ast.not (Ast.term ['a'])) (Ast.not (Ast.term ['b'])))).all
      (fun c => !(evaluatePositive c (tokenizeArticle "x")).matched)) = true ∧
    evaluateRule (Ast.near 9 (Ast.not (Ast.term ['a'])) (Ast.not (Ast.term ['b']))) "x" =
      ⟨false, []⟩ := by
  decide

theorem c4_witness :
    negOnly (Ast.and (Ast.not (Ast.term ['x'])) (Ast.not (Ast.term ['y']))) = true ∧
    evaluateRule (Ast.and (Ast.not (Ast.term ['x'])) (Ast.not (Ast.term ['y']))) "hello" =
      (if (topNotChildren (Ast.and (Ast.not (Ast.term ['x'])) (Ast.not (Ast.term ['y'])))).any
          (fun c => (evaluatePositive c (tokenizeArticle "hello")).matched)
       then ⟨false, []⟩ else ⟨true, []⟩) :=
  ⟨by decide, c4_negation_only_amended _ "hello" (by decide)⟩

/-! ## Claim C7 -/

/-- C7: `NEAR` is monotone in its distance parameter — for the same operand
subtrees and token vector, if `NEAR(d1, A, B)` evaluates with a positive
match then so does `NEAR(d2, A, B)` for every `d2 ≥ d1`. -/
theorem c7_near_monotone (A B : Ast) (tokens : List (List Char)) (d1 d2 : Nat)
    (hle : d1 ≤ d2)
    (h : (evaluatePositive (.near d1 A B) tokens).matched = true) :
    (evaluatePositive (.near d2 A B) tokens).matched = true := by
  simp only [evaluatePositive] at h ⊢
  by_cases hAB :
      ((evaluatePositive A tokens).matched && (evaluatePositive B tokens).matched) = true
  · rw [if_pos hAB] at h
    rw [if_pos hAB]
    have h1 : combineNearSpans (evaluatePositive A tokens).spans
        (evaluatePositive B tokens).spans d1 ≠ [] := by
      intro hnil
      rw [hnil] at h
      exact absurd h (by decide)
    obtain ⟨l, hl, r, hr, hd⟩ := (combine_ne_nil_iff _ _ _).mp h1
    have h2 := (combine_ne_nil_iff (evaluatePositive A tokens).spans
      (evaluatePositive B tokens).spans d2).mpr ⟨l, hl, r, hr, le_trans hd hle⟩
    rcases hC : combineNearSpans (evaluatePositive A tokens).spans
        (evaluatePositive B tokens).spans d2 with _ | ⟨a, t⟩
    · exact absurd hC h2
    · rfl
  · rw [if_neg hAB] at h
    exact absurd h (by decide)

theorem c7_witness :
    (1 : Nat) ≤ 2 ∧
    (evaluatePositive (.near 2 (Ast.term ['a']) (Ast.term ['b']))
      (tokenizeArticle "a b")).matched = true :=
  ⟨by decide,
    c7_near_monotone (Ast.term ['a']) (Ast.term ['b']) (tokenizeArticle "a b")
      1 2 (by decide) (by decide)⟩

/-! ## Claim C10 -/

/-- C10: a rule whose root is `NEAR` with a `NOT` node as either direct
operand is unsatisfiable: the `NOT` operand contributes no spans, the `NEAR`
cross-product of span pairs is therefore empty, and `evaluateRule` returns
`{matched:false, spans:[]}` on every article. -/
theorem c10_near_not_unsat (d : Nat) (c r : Ast) (text : String) :
    evaluateRule (Ast.near d (Ast.not c) r) text = ⟨false, []⟩ ∧
    evaluateRule (Ast.near d r (Ast.not c)) text = ⟨false, []⟩ := by
  constructor
  · have hs : (evaluatePositive (Ast.near d (Ast.not c) r)
        (tokenizeArticle text)).matched = false := by
      simp [evaluatePositive, combine_nil_left, ite_self]
    cases hf : checkForbidden (Ast.near d (Ast.not c) r) (tokenizeArticle text) with
    | true => simp [evaluateRule, hf]
    | false => simp [evaluateRule, hf, evaluatePositive, combine_nil_left, ite_self]
  · have hs : (evaluatePositive (Ast.near d r (Ast.not c))
        (tokenizeArticle text)).matched = false := by
      simp [evaluatePositive, combine_nil_right, ite_self]
    cases hf : checkForbidden (Ast.near d r (Ast.not c)) (tokenizeArticle text) with
    | true => simp [evaluateRule, hf]
    | false => simp [evaluateRule, hf, evaluatePositive, combine_nil_right, ite_self]

end BrandQuery

namespace BrandQuery

/-! ## Claim C8 -/

/-- C8: `classifyText` returns `{matched:false, classification:null}` without
evaluating any rule (the instrumented evaluation count is `0`) whenever the
catalog is uninitialized or the input text is empty or whitespace-only,
regardless of the catalog's contents. -/
theorem c8_guard_clauses (isInit : Bool) (cat : List BrandRule) (text : String)
    (h : isInit = false ∨ jsTrimL text.data = []) :
    classifyText isInit cat text = ⟨false, none⟩ ∧
    classifyEvalCount isInit cat text = 0 := by
  rcases h with h | h
  · subst h
    exact ⟨rfl, rfl⟩
  · constructor <;> simp [classifyText, classifyEvalCount, h]

theorem c8_witness :
    classifyText true [⟨"t", "s", "q", "i", Ast.term ['a']⟩] " " = ⟨false, none⟩ ∧
    classifyEvalCount true [⟨"t", "s", "q", "i", Ast.term ['a']⟩] " " = 0 :=
  c8_guard_clauses true [⟨"t", "s", "q", "i", Ast.term ['a']⟩] " " (Or.inr (by decide))

/-! ## Claim C9 -/

theorem tokQ_nil (f : Nat) : tokQ f [] = .ok [] := by
  cases f <;> rfl

theorem tokQ_all_ws : ∀ (l : List Char) (f : Nat),
    (∀ c ∈ l, jsWhitespace c = true) → l.length ≤ f → tokQ f l = .ok [] := by
  intro l
  induction l with
  | nil => intro f _ _; exact tokQ_nil f
  | cons c cs ih =>
    intro f hws hf
    cases f with
    | zero => simp at hf
    | succ g =>
      have hc : jsWhitespace c = true := hws c (List.mem_cons_self c cs)
      rw [tokQ, if_pos hc]
      exact ih g (fun x hx => hws x (List.mem_cons_of_mem c hx))
        (by simp at hf; omega)

/-- C9: `parseRule` succeeds with a null AST on the empty string, on every
whitespace-only string, and on `"()"`; and `evaluateRule` of the null AST on
any article text returns `{matched:true, spans:[]}` — an operand-less query
compiles to a rule matching every article. -/
theorem c9_null_ast :
    (∀ s : String, (∀ c ∈ s.data, jsWhitespace c = true) → parseRule s = .ok .null) ∧
    parseRule "()" = .ok Ast.null ∧
    (∀ text : String, evaluateRule Ast.null text = ⟨true, []⟩) := by
  refine ⟨?_, by decide, ?_⟩
  · intro s hs
    have ht : tokenizeQuery s = .ok [] :=
      tokQ_all_ws s.data (s.data.length + 1) hs (by omega)
    rw [parseRule, ht]
    rfl
  · intro text
    simp [evaluateRule, checkForbidden, evaluatePositive]

theorem c9_witness :
    parseRule " " = .ok Ast.null ∧ evaluateRule Ast.null "abc" = ⟨true, []⟩ :=
  ⟨c9_null_ast.1 " " (by decide), c9_null_ast.2.2 "abc"⟩

/-! ## Claim C6 -/

theorem classifyLoop_none (cat : List BrandRule) (text : String)
    (h : ∀ r ∈ cat, (evaluateRule r.ast text).matched = false) :
    classifyLoop cat text = ⟨false, none⟩ := by
  induction cat with
  | nil => rfl
  | cons q rest ih =>
    have hq := h q (List.mem_cons_self q rest)
    rw [classifyLoop, if_neg (by rw [hq]; exact Bool.false_ne_true)]
    exact ih fun r hr => h r (List.mem_cons_of_mem q hr)

theorem classifyLoop_first : ∀ (cat : List BrandRule) (text : String) (i : Nat)
    (hi : i < cat.length),
    (evaluateRule (cat.get ⟨i, hi⟩).ast text).matched = true →
    (∀ k (hk : k < cat.length), k < i →
      (evaluateRule (cat.get ⟨k, hk⟩).ast text).matched = false) →
    classifyLoop cat text = ⟨true, some (mkClassification (cat.get ⟨i, hi⟩))⟩ := by
  intro cat
  induction cat with
  | nil => intro text i hi; simp at hi
  | cons q rest ih =>
    intro text i hi hm hmin
    cases i with
    | zero =>
      have hm0 : (evaluateRule q.ast text).matched = true := hm
      rw [classifyLoop, if_pos hm0]
      rfl
    | succ j =>
      have h0 : (evaluateRule q.ast text).matched = false := hmin 0 (by omega) (by omega)
      rw [classifyLoop, if_neg (by rw [h0]; exact Bool.false_ne_true)]
      exact ih text j (Nat.succ_lt_succ_iff.mp hi) hm
        fun k hk hkj => hmin (k + 1) (Nat.succ_lt_succ hk) (Nat.succ_lt_succ hkj)

/-- C6 (amended): for every initialized catalog and every input text whose
whitespace-trimmed form is non-empty, if some rule's AST matches then
`classifyText` returns the projection of the rule with the smallest catalog
index whose evaluator matches, and if no rule matches it returns
`{matched:false, classification:null}`.  (For a non-empty but whitespace-only
text `classifyText` returns `{matched:false, classification:null}` without
evaluating any rule, even when a rule matches that text.) -/
theorem c6_first_match_amended (cat : List BrandRule) (text : String)
    (ht : jsTrimL text.data ≠ []) :
    ((∀ r ∈ cat, (evaluateRule r.ast text).matched = false) →
      classifyText true cat text = ⟨false, none⟩) ∧
    (∀ i (hi : i < cat.length),
      (evaluateRule (cat.get ⟨i, hi⟩).ast text).matched = true →
      (∀ k (hk : k < cat.length), k < i →
        (evaluateRule (cat.get ⟨k, hk⟩).ast text).matched = false) →
      classifyText true cat text = ⟨true, some (mkClassification (cat.get ⟨i, hi⟩))⟩) := by
  have hguard : ¬(text.data = [] ∨ jsTrimL text.data = []) := by
    rintro (h | h)
    · apply ht; rw [h]; rfl
    · exact ht h
  have hct : classifyText true cat text = classifyLoop cat text := by
    rw [classifyText, if_neg (by simp), if_neg hguard]
  constructor
  · intro h
    rw [hct]
    exact classifyLoop_none cat text h
  · intro i hi hm hmin
    rw [hct]
    exact classifyLoop_first cat text i hi hm hmin

/-- C6 counterexample: the claim quantifies over every *non-empty* input
text.  The text `" "` is non-empty and the rule `NOT recall` matches it
(`evaluateRule` yields `matched:true`), yet `classifyText` on an initialized
one-rule catalog returns `{matched:false, classification:null}` because the
text trims to the empty string. -/
theorem c6_counterexample :
    (" " : String).data ≠ [] ∧
    (evaluateRule (Ast.not (Ast.term ['r','e','c','a','l','l'])) " ").matched = true ∧
    classifyText true [⟨"t", "s", "q", "i", Ast.not (Ast.term ['r','e','c','a','l','l'])⟩]
      " " = ⟨false, none⟩ := by
  decide

theorem c6_witness :
    classifyText true
      [⟨"t1", "s1", "q1", "i1", Ast.term ['z']⟩, ⟨"t2", "s2", "q2", "i2", Ast.term ['a']⟩]
      "a" = ⟨true, some ⟨"t2", "s2", "q2", "i2"⟩⟩ :=
  (c6_first_match_amended
      [⟨"t1", "s1", "q1", "i1", Ast.term ['z']⟩, ⟨"t2", "s2", "q2", "i2", Ast.term ['a']⟩]
      "a" (by decide)).2 1 (by decide) (by decide)
      (fun k hk hlt => by
        have hk0 : k = 0 := by omega
        subst hk0
        exact (by decide : (evaluateRule (Ast.term ['z']) "a").matched = false))

end BrandQuery

namespace BrandQuery

/-! ## Claim C2 -/

theorem mem_dropWhile_imp (p : Char → Bool) :
    ∀ (l : List Char) (c : Char), c ∈ l.dropWhile p → c ∈ l := by
  intro l
  induction l with
  | nil => intro c hc; simp at hc
  | cons a t ih =>
    intro c hc
    rw [List.dropWhile_cons] at hc
    by_cases ha : p a = true
    · rw [if_pos ha] at hc
      exact List.mem_cons_of_mem a (ih c hc)
    · rw [if_neg ha] at hc
      exact hc

theorem mem_jsTrimL (l : List Char) (c : Char) (hc : c ∈ jsTrimL l) : c ∈ l := by
  rw [jsTrimL, List.mem_reverse] at hc
  have h1 := mem_dropWhile_imp jsWhitespace _ c hc
  rw [List.mem_reverse] at h1
  exact mem_dropWhile_imp jsWhitespace l c h1

theorem collapseWs_chars : ∀ (l : List Char) (c : Char), c ∈ collapseWs l →
    c = ' ' ∨ (c ∈ l ∧ jsWhitespace c = false) := by
  intro l
  induction l with
  | nil => intro c hc; simp [collapseWs] at hc
  | cons a t ih =>
    cases t with
    | nil =>
      intro c hc
      rw [collapseWs] at hc
      by_cases hws : jsWhitespace a = true
      · rw [if_pos hws] at hc
        exact Or.inl (by simpa using hc)
      · rw [if_neg hws] at hc
        have : c = a := by simpa using hc
        subst this
        exact Or.inr ⟨List.mem_cons_self c [], by simpa using hws⟩
    | cons b t2 =>
      intro c hc
      rw [collapseWs] at hc
      by_cases hab : (jsWhitespace a && jsWhitespace b) = true
      · rw [if_pos hab] at hc
        rcases ih c hc with h | ⟨h1, h2⟩
        · exact Or.inl h
        · exact Or.inr ⟨List.mem_cons_of_mem a h1, h2⟩
      · rw [if_neg hab] at hc
        rcases List.mem_cons.mp hc with h | h
        · by_cases hws : jsWhitespace a = true
          · rw [if_pos hws] at h
            exact Or.inl h
          · rw [if_neg hws] at h
            subst h
            exact Or.inr ⟨List.mem_cons_self c (b :: t2), by simpa using hws⟩
        · rcases ih c h with h' | ⟨h1, h2⟩
          · exact Or.inl h'
          · exact Or.inr ⟨List.mem_cons_of_mem a h1, h2⟩

theorem normalizeText_chars (l : List Char) (c : Char)
    (hc : c ∈ normalizeText l) : charOK c = true ∨ c = ' ' := by
  rw [normalizeText] at hc
  by_cases hl : l = []
  · rw [if_pos hl] at hc
    simp at hc
  · rw [if_neg hl] at hc
    have h1 := mem_jsTrimL _ c hc
    rcases collapseWs_chars _ c h1 with h | ⟨h2, h3⟩
    · exact Or.inr h
    · rw [List.mem_map] at h2
      obtain ⟨x, _, hx⟩ := h2
      rw [cleanChar] at hx
      by_cases hok : (charOK x || jsWhitespace x) = true
      · rw [if_pos hok] at hx
        subst hx
        rcases Bool.or_eq_true_iff.mp hok with h | h
        · exact Or.inl h
        · exact absurd h (by simpa using h3)
      · rw [if_neg hok] at hx
        exact Or.inr hx.symm

theorem splitCh_piece_chars (sep : Char) :
    ∀ (l : List Char) (p : List Char), p ∈ splitCh sep l →
      ∀ c ∈ p, c ∈ l ∧ c ≠ sep := by
  intro l
  induction l with
  | nil =>
    intro p hp c hc
    rw [splitCh] at hp
    have : p = [] := by simpa using hp
    subst this
    simp at hc
  | cons a t ih =>
    intro p hp c hc
    rw [splitCh] at hp
    by_cases ha : a = sep
    · rw [if_pos ha] at hp
      rcases List.mem_cons.mp hp with h | h
      · subst h; simp at hc
      · obtain ⟨h1, h2⟩ := ih p h c hc
        exact ⟨List.mem_cons_of_mem a h1, h2⟩
    · rw [if_neg ha] at hp
      rcases hr : splitCh sep t with _ | ⟨p0, ps⟩
      · rw [hr] at hp
        have : p = [a] := by simpa using hp
        subst this
        have : c = a := by simpa using hc
        subst this
        exact ⟨List.mem_cons_self c t, ha⟩
      · rw [hr] at hp
        rcases List.mem_cons.mp hp with h | h
        · subst h
          rcases List.mem_cons.mp hc with h' | h'
          · subst h'
            exact ⟨List.mem_cons_self c t, ha⟩
          · obtain ⟨h1, h2⟩ := ih p0 (by rw [hr]; exact List.mem_cons_self p0 ps) c h'
            exact ⟨List.mem_cons_of_mem a h1, h2⟩
        · obtain ⟨h1, h2⟩ := ih p (by rw [hr]; exact List.mem_cons_of_mem p0 h) c hc
          exact ⟨List.mem_cons_of_mem a h1, h2⟩

theorem stripTrail_subset : ∀ (t : List Char) (c : Char),
    c ∈ stripTrail t → c ∈ t := by
  intro t
  induction t with
  | nil => intro c hc; simp [stripTrail] at hc
  | cons a s ih =>
    intro c hc
    rw [stripTrail] at hc
    by_cases h : (stripTrail s = [] ∧ isMarkCh a = true)
    · rw [if_pos h] at hc
      simp at hc
    · rw [if_neg h] at hc
      rcases List.mem_cons.mp hc with h' | h'
      · subst h'
        exact List.mem_cons_self c s
      · exact List.mem_cons_of_mem a (ih c h')

theorem stripTrail_head (a : Char) (t : List Char)
    (h : stripTrail (a :: t) ≠ []) : (stripTrail (a :: t)).head? = some a := by
  rw [stripTrail] at h ⊢
  by_cases hc : (stripTrail t = [] ∧ isMarkCh a = true)
  · rw [if_pos hc] at h
    exact absurd rfl h
  · rw [if_neg hc]
    rfl

theorem stripTrail_getLast : ∀ (t : List Char) (x : Char),
    (stripTrail t).getLast? = some x → isMarkCh x = false := by
  intro t
  induction t with
  | nil => intro x hx; simp [stripTrail] at hx
  | cons a s ih =>
    intro x hx
    rw [stripTrail] at hx
    by_cases hc : (stripTrail s = [] ∧ isMarkCh a = true)
    · rw [if_pos hc] at hx
      simp at hx
    · rw [if_neg hc] at hx
      rcases hr : stripTrail s with _ | ⟨b, t2⟩
      · rw [hr] at hx
        have hxa : a = x := by simpa using hx
        subst hxa
        by_cases hm : isMarkCh a = true
        · exact absurd ⟨hr, hm⟩ hc
        · simpa using hm
      · rw [hr] at hx
        rw [List.getLast?_cons_cons] at hx
        exact ih x (by rw [hr]; exact hx)

/-- C2 (amended): every token produced by the article tokenizer is a
non-empty string over the alphabet `[a-z0-9@#]`; a token whose first
character is `@` or `#` has length at least 2; and a token whose first
character is not a mark does not end in `@` or `#`.  The original claim's
stronger shape — lowercase alphanumerics after at most one leading mark — is
false: the tokenizer keeps tokens such as `"@@"` or `"a@b"`. -/
theorem c2_token_shape_amended (text : String) (t : List Char)
    (ht : t ∈ tokenizeArticle text) :
    t ≠ [] ∧ (∀ c ∈ t, charOK c = true) ∧
    (hasMark t = true → 2 ≤ t.length) ∧
    (hasMark t = false → ∀ x, t.getLast? = some x → isMarkCh x = false) := by
  simp only [tokenizeArticle, tokenizeArticleCore] at ht
  split at ht
  · exact absurd ht (List.not_mem_nil t)
  · rw [List.mem_filter] at ht
    obtain ⟨hmem, hne⟩ := ht
    rw [List.mem_map] at hmem
    obtain ⟨piece, hpiece, rfl⟩ := hmem
    have hne' : cleanupTok piece ≠ [] := by
      intro h0
      rw [h0] at hne
      exact absurd hne (by decide)
    have hchars : ∀ c ∈ piece, charOK c = true := by
      intro c hc
      obtain ⟨hcn, hcs⟩ := splitCh_piece_chars ' ' _ piece hpiece c hc
      rcases normalizeText_chars text.data c hcn with h | h
      · exact h
      · exact absurd h hcs
    by_cases h1 : piece = ['@'] ∨ piece = ['#']
    · rw [cleanupTok, if_pos h1] at hne'
      exact absurd rfl hne'
    · by_cases h2 : hasMark piece = true ∧ 1 < piece.length
      · rw [cleanupTok, if_neg h1, if_pos h2] at hne' ⊢
        refine ⟨hne', hchars, fun _ => by omega, fun hmk x _ => ?_⟩
        exact absurd h2.1 (by rw [hmk]; exact Bool.false_ne_true)
      · rw [cleanupTok, if_neg h1, if_neg h2] at hne' ⊢
        refine ⟨hne', fun c hc => hchars c (stripTrail_subset piece c hc), ?_, ?_⟩
        · intro hmk
          exfalso
          have hpne : piece ≠ [] := by
            intro h0
            rw [h0] at hne'
            exact hne' rfl
          obtain ⟨a, p, rfl⟩ := List.exists_cons_of_ne_nil hpne
          have hhd := stripTrail_head a p hne'
          obtain ⟨s0, stl, hst⟩ : ∃ s0 stl, stripTrail (a :: p) = s0 :: stl := by
            rcases hq : stripTrail (a :: p) with _ | ⟨s0, stl⟩
            · exact absurd hq hne'
            · exact ⟨s0, stl, rfl⟩
          rw [hst] at hhd hmk
          have hs0 : s0 = a := by simpa using hhd
          rw [hs0] at hmk
          have hma : isMarkCh a = true := hmk
          have hlen : ¬(1 < (a :: p).length) := fun hl => h2 ⟨hma, hl⟩
          have hp0 : p = [] := by
            cases p with
            | nil => rfl
            | cons b q => exact absurd (by simp) hlen
          subst hp0
          have hms : a = '@' ∨ a = '#' := by
            simpa [isMarkCh] using hma
          rcases hms with rfl | rfl
          · exact h1 (Or.inl rfl)
          · exact h1 (Or.inr rfl)
        · intro _ x hx
          exact stripTrail_getLast piece x hx

/-- C2 counterexample: on the input `"@@"` the tokenizer produces the token
`"@@"`, which consists of two prefix characters and nothing else — it is not
a lowercase-alphanumeric string with at most one leading `@`/`#`. -/
theorem c2_counterexample :
    ['@', '@'] ∈ tokenizeArticle "@@" ∧ claimTokenOK ['@', '@'] = false := by
  decide

theorem c2_witness :
    ['#', 'a', 'b'] ∈ tokenizeArticle "x #ab" ∧
    2 ≤ (['#', 'a', 'b'] : List Char).length :=
  ⟨by decide,
    (c2_token_shape_amended "x #ab" ['#', 'a', 'b'] (by decide)).2.2.1 (by decide)⟩

end BrandQuery

namespace BrandQuery

/-! ## Claim C3 -/

theorem winv_null : WInv .null := by
  intro p hp
  simp [wildcardPres] at hp

theorem winv_term (v : List Char) : WInv (.term v) := by
  intro p hp
  simp [wildcardPres] at hp

theorem winv_phrase (q : List (List Char)) : WInv (.phrase q) := by
  intro p hp
  simp [wildcardPres] at hp

theorem winv_wild (r : List Char) : WInv (.wildcard (normalizeText r)) := by
  intro p hp
  simp only [wildcardPres, List.mem_singleton] at hp
  exact ⟨r, hp⟩

theorem winv_not {c : Ast} (h : WInv c) : WInv (.not c) := by
  intro p hp
  exact h p (by simpa [wildcardPres] using hp)

theorem winv_and {l r : Ast} (hl : WInv l) (hr : WInv r) : WInv (.and l r) := by
  intro p hp
  rw [wildcardPres, List.mem_append] at hp
  rcases hp with hp | hp
  · exact hl p hp
  · exact hr p hp

theorem winv_or {l r : Ast} (hl : WInv l) (hr : WInv r) : WInv (.or l r) := by
  intro p hp
  rw [wildcardPres, List.mem_append] at hp
  rcases hp with hp | hp
  · exact hl p hp
  · exact hr p hp

theorem winv_near {l r : Ast} (d : Nat) (hl : WInv l) (hr : WInv r) :
    WInv (.near d l r) := by
  intro p hp
  rw [wildcardPres, List.mem_append] at hp
  rcases hp with hp | hp
  · exact hl p hp
  · exact hr p hp

theorem parser_winv : ∀ f : Nat,
    (∀ ts a rest, parsePrimary f ts = .ok (a, rest) → WInv a) ∧
    (∀ ts a rest, parseUnary f ts = .ok (a, rest) → WInv a) ∧
    (∀ ts a rest, parseNear f ts = .ok (a, rest) → WInv a) ∧
    (∀ node ts a rest, parseNearLoop f node ts = .ok (a, rest) → WInv node → WInv a) ∧
    (∀ ts a rest, parseAnd f ts = .ok (a, rest) → WInv a) ∧
    (∀ node ts a rest, parseAndLoop f node ts = .ok (a, rest) → WInv node → WInv a) ∧
    (∀ ts a rest, parseOr f ts = .ok (a, rest) → WInv a) ∧
    (∀ node ts a rest, parseOrLoop f node ts = .ok (a, rest) → WInv node → WInv a) := by
  intro f
  induction f with
  | zero =>
    refine ⟨fun ts a rest h => ?_, fun ts a rest h => ?_, fun ts a rest h => ?_,
      fun node ts a rest h _ => ?_, fun ts a rest h => ?_,
      fun node ts a rest h _ => ?_, fun ts a rest h => ?_,
      fun node ts a rest h _ => ?_⟩ <;> simp [parsePrimary, parseUnary,
        parseNear, parseNearLoop, parseAnd, parseAndLoop, parseOr, parseOrLoop] at h
  | succ f ih =>
    obtain ⟨ihP, ihU, ihN, ihNL, ihA, ihAL, ihO, ihOL⟩ := ih
    refine ⟨?_, ?_, ?_, ?_, ?_, ?_, ?_, ?_⟩
    -- parsePrimary
    · intro ts a rest h
      cases ts with
      | nil =>
        simp only [parsePrimary, Except.ok.injEq, Prod.mk.injEq] at h
        obtain ⟨rfl, rfl⟩ := h
        exact winv_null
      | cons t rest0 =>
        cases t with
        | lparen =>
          simp only [parsePrimary] at h
          cases hO : parseOr f rest0 with
          | error e => rw [hO] at h; simp at h
          | ok pr =>
            obtain ⟨e, ts1⟩ := pr
            rw [hO] at h
            cases ts1 with
            | nil => simp at h
            | cons t1 ts2 =>
              cases t1 with
              | rparen =>
                simp only [Except.ok.injEq, Prod.mk.injEq] at h
                obtain ⟨rfl, rfl⟩ := h
                exact ihO rest0 e (QTok.rparen :: ts2) hO
              | lparen => simp at h
              | qand => simp at h
              | qor => simp at h
              | qnot => simp at h
              | near d => simp at h
              | nearWord => simp at h
              | phrase v => simp at h
              | term v => simp at h
        | phrase v =>
          simp only [parsePrimary, Except.ok.injEq, Prod.mk.injEq] at h
          obtain ⟨rfl, rfl⟩ := h
          exact winv_phrase _
        | term raw =>
          simp only [parsePrimary] at h
          by_cases hs : raw.getLast? = some '*'
          · rw [if_pos hs] at h
            simp only [Except.ok.injEq, Prod.mk.injEq] at h
            obtain ⟨rfl, rfl⟩ := h
            exact winv_wild _
          · rw [if_neg hs] at h
            simp only [Except.ok.injEq, Prod.mk.injEq] at h
            obtain ⟨rfl, rfl⟩ := h
            exact winv_term _
        | rparen =>
          simp only [parsePrimary, Except.ok.injEq, Prod.mk.injEq] at h
          obtain ⟨rfl, rfl⟩ := h
          exact winv_null
        | qand =>
          simp only [parsePrimary, Except.ok.injEq, Prod.mk.injEq] at h
          obtain ⟨rfl, rfl⟩ := h
          exact winv_null
        | qor =>
          simp only [parsePrimary, Except.ok.injEq, Prod.mk.injEq] at h
          obtain ⟨rfl, rfl⟩ := h
          exact winv_null
        | qnot =>
          simp only [parsePrimary, Except.ok.injEq, Prod.mk.injEq] at h
          obtain ⟨rfl, rfl⟩ := h
          exact winv_null
        | near d =>
          simp only [parsePrimary, Except.ok.injEq, Prod.mk.injEq] at h
          obtain ⟨rfl, rfl⟩ := h
          exact winv_null
        | nearWord =>
          simp only [parsePrimary, Except.ok.injEq, Prod.mk.injEq] at h
          obtain ⟨rfl, rfl⟩ := h
          exact winv_null
    -- parseUnary
    · intro ts a rest h
      cases ts with
      | nil =>
        simp only [parseUnary] at h
        exact ihP [] a rest h
      | cons t rest0 =>
        cases t with
        | qnot =>
          simp only [parseUnary] at h
          cases hU : parseUnary f rest0 with
          | error e => rw [hU] at h; simp at h
          | ok pr =>
            obtain ⟨child, ts1⟩ := pr
            rw [hU] at h
            dsimp only at h
            by_cases hn : child = Ast.null
            · rw [if_pos hn] at h; simp at h
            · rw [if_neg hn] at h
              simp only [Except.ok.injEq, Prod.mk.injEq] at h
              obtain ⟨rfl, rfl⟩ := h
              exact winv_not (ihU rest0 child ts1 hU)
        | lparen => simp only [parseUnary] at h; exact ihP _ a rest h
        | rparen => simp only [parseUnary] at h; exact ihP _ a rest h
        | qand => simp only [parseUnary] at h; exact ihP _ a rest h
        | qor => simp only [parseUnary] at h; exact ihP _ a rest h
        | near d => simp only [parseUnary] at h; exact ihP _ a rest h
        | nearWord => simp only [parseUnary] at h; exact ihP _ a rest h
        | phrase v => simp only [parseUnary] at h; exact ihP _ a rest h
        | term v => simp only [parseUnary] at h; exact ihP _ a rest h
    -- parseNear
    · intro ts a rest h
      simp only [parseNear] at h
      cases hU : parseUnary f ts with
      | error e => rw [hU] at h; simp at h
      | ok pr =>
        obtain ⟨n, ts1⟩ := pr
        rw [hU] at h
        exact ihNL n ts1 a rest h (ihU ts n ts1 hU)
    -- parseNearLoop
    · intro node ts a rest h hnode
      cases ts with
      | nil =>
        simp only [parseNearLoop, Except.ok.injEq, Prod.mk.injEq] at h
        obtain ⟨rfl, rfl⟩ := h
        exact hnode
      | cons t rest0 =>
        cases t with
        | near d =>
          simp only [parseNearLoop] at h
          cases hU : parseUnary f rest0 with
          | error e => rw [hU] at h; simp at h
          | ok pr =>
            obtain ⟨r, ts2⟩ := pr
            rw [hU] at h
            dsimp only at h
            by_cases hr0 : r = Ast.null
            · rw [if_pos hr0] at h; simp at h
            · rw [if_neg hr0] at h
              exact ihNL _ ts2 a rest h (winv_near d hnode (ihU rest0 r ts2 hU))
        | nearWord =>
          simp only [parseNearLoop] at h
          rcases hs : nearWordDistance rest0 with ⟨dd, tsd⟩
          rw [hs] at h
          cases hU : parseUnary f tsd with
          | error e => rw [hU] at h; simp at h
          | ok pr =>
            obtain ⟨r, ts2⟩ := pr
            rw [hU] at h
            dsimp only at h
            by_cases hr0 : r = Ast.null
            · rw [if_pos hr0] at h; simp at h
            · rw [if_neg hr0] at h
              exact ihNL _ ts2 a rest h (winv_near dd hnode (ihU tsd r ts2 hU))
        | lparen =>
          simp only [parseNearLoop, Except.ok.injEq, Prod.mk.injEq] at h
          obtain ⟨rfl, rfl⟩ := h
          exact hnode
        | rparen =>
          simp only [parseNearLoop, Except.ok.injEq, Prod.mk.injEq] at h
          obtain ⟨rfl, rfl⟩ := h
          exact hnode
        | qand =>
          simp only [parseNearLoop, Except.ok.injEq, Prod.mk.injEq] at h
          obtain ⟨rfl, rfl⟩ := h
          exact hnode
        | qor =>
          simp only [parseNearLoop, Except.ok.injEq, Prod.mk.injEq] at h
          obtain ⟨rfl, rfl⟩ := h
          exact hnode
        | qnot =>
          simp only [parseNearLoop, Except.ok.injEq, Prod.mk.injEq] at h
          obtain ⟨rfl, rfl⟩ := h
          exact hnode
        | phrase v =>
          simp only [parseNearLoop, Except.ok.injEq, Prod.mk.injEq] at h
          obtain ⟨rfl, rfl⟩ := h
          exact hnode
        | term v =>
          simp only [parseNearLoop, Except.ok.injEq, Prod.mk.injEq] at h
          obtain ⟨rfl, rfl⟩ := h
          exact hnode
    -- parseAnd
    · intro ts a rest h
      simp only [parseAnd] at h
      cases hN : parseNear f ts with
      | error e => rw [hN] at h; simp at h
      | ok pr =>
        obtain ⟨n, ts1⟩ := pr
        rw [hN] at h
        exact ihAL n ts1 a rest h (ihN ts n ts1 hN)
    -- parseAndLoop
    · intro node ts a rest h hnode
      cases ts with
      | nil =>
        simp only [parseAndLoop, Except.ok.injEq, Prod.mk.injEq] at h
        obtain ⟨rfl, rfl⟩ := h
        exact hnode
      | cons t rest0 =>
        cases t with
        | qand =>
          simp only [parseAndLoop] at h
          cases hN : parseNear f rest0 with
          | error e => rw [hN] at h; simp at h
          | ok pr =>
            obtain ⟨r, ts2⟩ := pr
            rw [hN] at h
            dsimp only at h
            by_cases hr0 : r = Ast.null
            · rw [if_pos hr0] at h; simp at h
            · rw [if_neg hr0] at h
              exact ihAL _ ts2 a rest h (winv_and hnode (ihN rest0 r ts2 hN))
        | qnot =>
          simp only [parseAndLoop] at h
          cases hN : parseNear f (QTok.qnot :: rest0) with
          | error e => rw [hN] at h; simp at h
          | ok pr =>
            obtain ⟨r, ts2⟩ := pr
            rw [hN] at h
            dsimp only at h
            by_cases hr0 : r = Ast.null
            · rw [if_pos hr0] at h; simp at h
            · rw [if_neg hr0] at h
              exact ihAL _ ts2 a rest h (winv_and hnode (ihN _ r ts2 hN))
        | lparen =>
          simp only [parseAndLoop, Except.ok.injEq, Prod.mk.injEq] at h
          obtain ⟨rfl, rfl⟩ := h
          exact hnode
        | rparen =>
          simp only [parseAndLoop, Except.ok.injEq, Prod.mk.injEq] at h
          obtain ⟨rfl, rfl⟩ := h
          exact hnode
        | qor =>
          simp only [parseAndLoop, Except.ok.injEq, Prod.mk.injEq] at h
          obtain ⟨rfl, rfl⟩ := h
          exact hnode
        | near d =>
          simp only [parseAndLoop, Except.ok.injEq, Prod.mk.injEq] at h
          obtain ⟨rfl, rfl⟩ := h
          exact hnode
        | nearWord =>
          simp only [parseAndLoop, Except.ok.injEq, Prod.mk.injEq] at h
          obtain ⟨rfl, rfl⟩ := h
          exact hnode
        | phrase v =>
          simp only [parseAndLoop, Except.ok.injEq, Prod.mk.injEq] at h
          obtain ⟨rfl, rfl⟩ := h
          exact hnode
        | term v =>
          simp only [parseAndLoop, Except.ok.injEq, Prod.mk.injEq] at h
          obtain ⟨rfl, rfl⟩ := h
          exact hnode
    -- parseOr
    · intro ts a rest h
      simp only [parseOr] at h
      cases hA : parseAnd f ts with
      | error e => rw [hA] at h; simp at h
      | ok pr =>
        obtain ⟨n, ts1⟩ := pr
        rw [hA] at h
        exact ihOL n ts1 a rest h (ihA ts n ts1 hA)
    -- parseOrLoop
    · intro node ts a rest h hnode
      cases ts with
      | nil =>
        simp only [parseOrLoop, Except.ok.injEq, Prod.mk.injEq] at h
        obtain ⟨rfl, rfl⟩ := h
        exact hnode
      | cons t rest0 =>
        cases t with
        | qor =>
          simp only [parseOrLoop] at h
          cases hA : parseAnd f rest0 with
          | error e => rw [hA] at h; simp at h
          | ok pr =>
            obtain ⟨r, ts2⟩ := pr
            rw [hA] at h
            dsimp only at h
            by_cases hr0 : r = Ast.null
            · rw [if_pos hr0] at h; simp at h
            · rw [if_neg hr0] at h
              exact ihOL _ ts2 a rest h (winv_or hnode (ihA rest0 r ts2 hA))
        | lparen =>
          simp only [parseOrLoop, Except.ok.injEq, Prod.mk.injEq] at h
          obtain ⟨rfl, rfl⟩ := h
          exact hnode
        | rparen =>
          simp only [parseOrLoop, Except.ok.injEq, Prod.mk.injEq] at h
          obtain ⟨rfl, rfl⟩ := h
          exact hnode
        | qand =>
          simp only [parseOrLoop, Except.ok.injEq, Prod.mk.injEq] at h
          obtain ⟨rfl, rfl⟩ := h
          exact hnode
        | qnot =>
          simp only [parseOrLoop, Except.ok.injEq, Prod.mk.injEq] at h
          obtain ⟨rfl, rfl⟩ := h
          exact hnode
        | near d =>
          simp only [parseOrLoop, Except.ok.injEq, Prod.mk.injEq] at h
          obtain ⟨rfl, rfl⟩ := h
          exact hnode
        | nearWord =>
          simp only [parseOrLoop, Except.ok.injEq, Prod.mk.injEq] at h
          obtain ⟨rfl, rfl⟩ := h
          exact hnode
        | phrase v =>
          simp only [parseOrLoop, Except.ok.injEq, Prod.mk.injEq] at h
          obtain ⟨rfl, rfl⟩ := h
          exact hnode
        | term v =>
          simp only [parseOrLoop, Except.ok.injEq, Prod.mk.injEq] at h
          obtain ⟨rfl, rfl⟩ := h
          exact hnode

/-- C3 (amended): for every accepted query, every `WILDCARD` node's prefix is
an output of the normalizer (applied by the parser to the starred term's
body); such an output may be empty, so the parser does not structurally
guarantee non-empty wildcard prefixes — `parseRule` accepts `"*"` and yields
a `WILDCARD` with empty prefix. -/
theorem c3_wildcard_pre_amended (q : String) (a : Ast) (h : parseRule q = .ok a) :
    ∀ p ∈ wildcardPres a, ∃ r, p = normalizeText r := by
  rw [parseRule] at h
  cases htk : tokenizeQuery q with
  | error e => rw [htk] at h; simp at h
  | ok ts =>
    rw [htk] at h
    dsimp only at h
    cases hp : parseOr (8 * (ts.length + 2)) ts with
    | error e => rw [hp] at h; simp at h
    | ok pr =>
      obtain ⟨ast, rest⟩ := pr
      rw [hp] at h
      dsimp only at h
      by_cases hr : rest = []
      · rw [if_pos hr] at h
        simp only [Except.ok.injEq] at h
        subst h
        exact (parser_winv _).2.2.2.2.2.2.1 ts ast rest hp
      · rw [if_neg hr] at h
        simp at h

/-- C3 counterexample: the query `"*"` is accepted by `parseRule` and yields
a `WILDCARD` whose prefix is the empty string. -/
theorem c3_counterexample :
    parseRule "*" = .ok (.wildcard []) ∧
    ([] : List Char) ∈ wildcardPres (.wildcard []) ∧
    ([] : List Char).length = 0 := by
  decide

theorem c3_witness :
    parseRule "ab*" = .ok (.wildcard ['a', 'b']) ∧
    ∃ r, (['a', 'b'] : List Char) = normalizeText r :=
  ⟨by decide,
    c3_wildcard_pre_amended "ab*" (.wildcard ['a', 'b']) (by decide) ['a', 'b']
      (by decide)⟩

end BrandQuery

namespace BrandQuery

/-! ## Claim C5 -/

theorem takeWhile_app_all (p : Char → Bool) :
    ∀ (w rest : List Char), (∀ c ∈ w, p c = true) →
      (w ++ rest).takeWhile p = w ++ rest.takeWhile p := by
  intro w
  induction w with
  | nil => intro rest _; simp
  | cons a t ih =>
    intro rest h
    rw [List.cons_append, List.takeWhile_cons,
      if_pos (h a (List.mem_cons_self a t)), ih rest fun c hc => h c (List.mem_cons_of_mem a hc)]
    rfl

theorem dropWhile_app_all (p : Char → Bool) :
    ∀ (w rest : List Char), (∀ c ∈ w, p c = true) →
      (w ++ rest).dropWhile p = rest.dropWhile p := by
  intro w
  induction w with
  | nil => intro rest _; simp
  | cons a t ih =>
    intro rest h
    rw [List.cons_append, List.dropWhile_cons,
      if_pos (h a (List.mem_cons_self a t))]
    exact ih rest fun c hc => h c (List.mem_cons_of_mem a hc)

theorem isBareChar_props (c : Char) (h : isBareChar c = true) :
    jsWhitespace c = false ∧ ¬(c = '(') ∧ ¬(c = ')') ∧
      ¬(c = quoteCh) ∧ ¬(c = aposCh) := by
  rw [isBareChar] at h
  simp only [Bool.not_eq_true', Bool.or_eq_false_iff, decide_eq_false_iff_not] at h
  exact ⟨h.1.1.1.1, h.1.1.1.2, h.1.1.2, h.1.2, h.2⟩

theorem digit_isBare (c : Char) (h : isDigitCh c = true) : isBareChar c = true := by
  rw [isDigitCh] at h
  simp only [Bool.and_eq_true, decide_eq_true_eq] at h
  have h1 : jsWhitespace c = false := by
    simp only [jsWhitespace, Bool.or_eq_false_iff, Bool.and_eq_false_iff,
      decide_eq_false_iff_not]
    omega
  have h2 : ¬(c = '(') := fun he => by subst he; exact absurd h (by decide)
  have h3 : ¬(c = ')') := fun he => by subst he; exact absurd h (by decide)
  have h4 : ¬(c = quoteCh) := fun he => by subst he; exact absurd h (by decide)
  have h5 : ¬(c = aposCh) := fun he => by subst he; exact absurd h (by decide)
  simp [isBareChar, h1, h2, h3, h4, h5]

theorem length_dropWhile_le_len (p : Char → Bool) :
    ∀ l : List Char, (l.dropWhile p).length ≤ l.length := by
  intro l
  induction l with
  | nil => simp
  | cons a t ih =>
    rw [List.dropWhile_cons]
    by_cases h : p a = true
    · rw [if_pos h]
      exact Nat.le_succ_of_le ih
    · rw [if_neg h]

theorem tokQ_fuel_irrel : ∀ (n : Nat) (l : List Char), l.length ≤ n →
    ∀ f g, l.length ≤ f → l.length ≤ g → tokQ f l = tokQ g l := by
  intro n
  induction n with
  | zero =>
    intro l hl f g _ _
    have h0 : l = [] := List.length_eq_zero.mp (Nat.le_zero.mp hl)
    subst h0
    rw [tokQ_nil, tokQ_nil]
  | succ n ih =>
    intro l hl f g hf hg
    cases l with
    | nil => rw [tokQ_nil, tokQ_nil]
    | cons c cs =>
      rw [List.length_cons] at hl hf hg
      cases f with
      | zero => omega
      | succ f' =>
        cases g with
        | zero => omega
        | succ g' =>
          rw [tokQ, tokQ]
          by_cases h1 : jsWhitespace c = true
          · rw [if_pos h1, if_pos h1]
            exact ih cs (by omega) f' g' (by omega) (by omega)
          · rw [if_neg h1, if_neg h1]
            by_cases h2 : c = '('
            · rw [if_pos h2, if_pos h2,
                ih cs (by omega) f' g' (by omega) (by omega)]
            · rw [if_neg h2, if_neg h2]
              by_cases h3 : c = ')'
              · rw [if_pos h3, if_pos h3,
                  ih cs (by omega) f' g' (by omega) (by omega)]
              · rw [if_neg h3, if_neg h3]
                by_cases h4 : (c = quoteCh ∨ c = aposCh)
                · rw [if_pos h4, if_pos h4]
                  cases hdw : cs.dropWhile (fun x => x != c) with
                  | nil => rfl
                  | cons x rest2 =>
                    have hlen : rest2.length + 1 ≤ cs.length := by
                      have := length_dropWhile_le_len (fun x => x != c) cs
                      rw [hdw] at this
                      simpa using this
                    dsimp only
                    rw [ih rest2 (by omega) f' g' (by omega) (by omega)]
                · rw [if_neg h4, if_neg h4]
                  have hbare : isBareChar c = true := by
                    push_neg at h4
                    simp [isBareChar, h1, h2, h3, h4.1, h4.2]
                  have hdrop : (c :: cs).dropWhile isBareChar = cs.dropWhile isBareChar := by
                    rw [List.dropWhile_cons, if_pos hbare]
                  rw [hdrop]
                  have hlen : (cs.dropWhile isBareChar).length ≤ cs.length :=
                    length_dropWhile_le_len isBareChar cs
                  rw [ih (cs.dropWhile isBareChar) (by omega) f' g' (by omega) (by omega)]

theorem tokQstep_ws (c : Char) (cs : List Char) (h : jsWhitespace c = true) :
    tokQ ((c :: cs).length + 1) (c :: cs) = tokQ (cs.length + 1) cs := by
  rw [List.length_cons, tokQ, if_pos h]

theorem tokQstep_bare (w rest : List Char) (hw : w ≠ [])
    (hall : ∀ c ∈ w, isBareChar c = true)
    (hrest : rest = [] ∨ ∃ d ds, rest = d :: ds ∧ isBareChar d = false) :
    tokQ ((w ++ rest).length + 1) (w ++ rest) =
      match tokQ (rest.length + 1) rest with
      | .error e => .error e
      | .ok ts => .ok (classifyTok w :: ts) := by
  obtain ⟨c, w', rfl⟩ := List.exists_cons_of_ne_nil hw
  have hc := hall c (List.mem_cons_self c w')
  obtain ⟨p1, p2, p3, p4, p5⟩ := isBareChar_props c hc
  have hallw' : ∀ x ∈ w', isBareChar x = true :=
    fun x hx => hall x (List.mem_cons_of_mem c hx)
  have hrt : rest.takeWhile isBareChar = [] := by
    rcases hrest with rfl | ⟨d, ds, rfl, hd⟩
    · rfl
    · rw [List.takeWhile_cons, if_neg (by rw [hd]; exact Bool.false_ne_true)]
  have hrd : rest.dropWhile isBareChar = rest := by
    rcases hrest with rfl | ⟨d, ds, rfl, hd⟩
    · rfl
    · rw [List.dropWhile_cons, if_neg (by rw [hd]; exact Bool.false_ne_true)]
  have htw : (c :: (w' ++ rest)).takeWhile isBareChar = c :: w' := by
    rw [List.takeWhile_cons, if_pos hc, takeWhile_app_all isBareChar w' rest hallw',
      hrt, List.append_nil]
  have hdw : (c :: (w' ++ rest)).dropWhile isBareChar = rest := by
    rw [List.dropWhile_cons, if_pos hc, dropWhile_app_all isBareChar w' rest hallw', hrd]
  rw [List.cons_append, List.length_cons, tokQ,
    if_neg (by rw [p1]; exact Bool.false_ne_true), if_neg p2, if_neg p3,
    if_neg (by rintro (h | h); exact p4 h; exact p5 h), htw, hdw,
    tokQ_fuel_irrel rest.length rest le_rfl ((w' ++ rest).length + 1) (rest.length + 1)
      (by simp; omega) (by omega)]

theorem tokQ_bare_last (w : List Char) (hw : w ≠ [])
    (hall : ∀ c ∈ w, isBareChar c = true) :
    tokQ (w.length + 1) w = .ok [classifyTok w] := by
  have h := tokQstep_bare w [] hw hall (Or.inl rfl)
  rw [List.append_nil] at h
  simpa using h

theorem classifyTok_nearSlash (ds : List Char) (h1 : ds ≠ [])
    (h2 : ds.all isDigitCh = true) :
    classifyTok ("NEAR/".data ++ ds) = .near (parseDigits ds) := by
  have hl5 : ("NEAR/".data).length = 5 := rfl
  have htake : ("NEAR/".data ++ ds).take 5 = "NEAR/".data := by
    rw [← hl5, List.take_left]
  have hdrop : ("NEAR/".data ++ ds).drop 5 = ds := by
    rw [← hl5, List.drop_left]
  have hds1 : 1 ≤ ds.length := List.length_pos.mpr h1
  have hA : ¬(("NEAR/".data ++ ds).map Char.toUpper = "AND".data) := by
    intro hh
    have hlen := congrArg List.length hh
    rw [List.length_map, List.length_append, hl5,
      show ("AND".data).length = 3 from rfl] at hlen
    omega
  have hO : ¬(("NEAR/".data ++ ds).map Char.toUpper = "OR".data) := by
    intro hh
    have hlen := congrArg List.length hh
    rw [List.length_map, List.length_append, hl5,
      show ("OR".data).length = 2 from rfl] at hlen
    omega
  have hN : ¬(("NEAR/".data ++ ds).map Char.toUpper = "NOT".data) := by
    intro hh
    have hlen := congrArg List.length hh
    rw [List.length_map, List.length_append, hl5,
      show ("NOT".data).length = 3 from rfl] at hlen
    omega
  rw [classifyTok]
  rw [if_neg hA, if_neg hO, if_neg hN,
    if_pos ⟨by rw [htake]; decide, by rw [hdrop]; exact h1, by rw [hdrop]; exact h2⟩,
    hdrop]

theorem classifyTok_slashTerm (ds : List Char) :
    classifyTok ('/' :: ds) = .term ('/' :: ds) := by
  have hmap : ('/' :: ds).map Char.toUpper = '/' :: ds.map Char.toUpper := by
    rw [List.map_cons, show Char.toUpper '/' = '/' from by decide]
  have hA : ¬(('/' :: ds).map Char.toUpper = "AND".data) := by
    rw [hmap, show ("AND".data) = ['A', 'N', 'D'] from rfl]
    intro hh
    injection hh with hh1 _
    exact absurd hh1 (by decide)
  have hO : ¬(('/' :: ds).map Char.toUpper = "OR".data) := by
    rw [hmap, show ("OR".data) = ['O', 'R'] from rfl]
    intro hh
    injection hh with hh1 _
    exact absurd hh1 (by decide)
  have hN : ¬(('/' :: ds).map Char.toUpper = "NOT".data) := by
    rw [hmap, show ("NOT".data) = ['N', 'O', 'T'] from rfl]
    intro hh
    injection hh with hh1 _
    exact absurd hh1 (by decide)
  have hNS : ¬((('/' :: ds).take 5).map Char.toUpper = "NEAR/".data ∧
      (('/' :: ds).drop 5) ≠ [] ∧ (('/' :: ds).drop 5).all isDigitCh) := by
    rintro ⟨hh, -, -⟩
    rw [show (5 : Nat) = 4 + 1 from rfl, List.take_succ_cons, List.map_cons,
      show ("NEAR/".data) = ['N', 'E', 'A', 'R', '/'] from rfl] at hh
    injection hh with hh1 _
    rw [show Char.toUpper '/' = '/' from by decide] at hh1
    exact absurd hh1 (by decide)
  have hW : ¬(('/' :: ds).map Char.toUpper = "NEAR".data) := by
    rw [hmap, show ("NEAR".data) = ['N', 'E', 'A', 'R'] from rfl]
    intro hh
    injection hh with hh1 _
    exact absurd hh1 (by decide)
  rw [classifyTok, if_neg hA, if_neg hO, if_neg hN, if_neg hNS, if_neg hW]

end BrandQuery

namespace BrandQuery

theorem tokens_form1 (w1 w2 ds : List Char)
    (hw1 : w1 ≠ []) (hb1 : ∀ c ∈ w1, isBareChar c = true)
    (hw2 : w2 ≠ []) (hb2 : ∀ c ∈ w2, isBareChar c = true)
    (hds : ds ≠ []) (hdig : ds.all isDigitCh = true) :
    tokQ ((w1 ++ ' ' :: ("NEAR/".data ++ ds ++ (' ' :: w2))).length + 1)
        (w1 ++ ' ' :: ("NEAR/".data ++ ds ++ (' ' :: w2))) =
      .ok [classifyTok w1, .near (parseDigits ds), classifyTok w2] := by
  have hbm : ∀ c ∈ "NEAR/".data ++ ds, isBareChar c = true := by
    intro c hc
    rcases List.mem_append.mp hc with h | h
    · exact (show ∀ x ∈ "NEAR/".data, isBareChar x = true by decide) c h
    · exact digit_isBare c (List.all_eq_true.mp hdig c h)
  rw [tokQstep_bare w1 (' ' :: ("NEAR/".data ++ ds ++ (' ' :: w2))) hw1 hb1
      (Or.inr ⟨' ', _, rfl, by decide⟩),
    tokQstep_ws ' ' ("NEAR/".data ++ ds ++ (' ' :: w2)) (by decide),
    tokQstep_bare ("NEAR/".data ++ ds) (' ' :: w2) (by simp) hbm
      (Or.inr ⟨' ', w2, rfl, by decide⟩),
    tokQstep_ws ' ' w2 (by decide),
    tokQ_bare_last w2 hw2 hb2,
    classifyTok_nearSlash ds hds hdig]

theorem tokens_form2 (w1 w2 ds : List Char)
    (hw1 : w1 ≠ []) (hb1 : ∀ c ∈ w1, isBareChar c = true)
    (hw2 : w2 ≠ []) (hb2 : ∀ c ∈ w2, isBareChar c = true)
    (hdig : ds.all isDigitCh = true) :
    tokQ ((w1 ++ ' ' :: ("NEAR".data ++ (' ' :: (('/' :: ds) ++ (' ' :: w2))))).length + 1)
        (w1 ++ ' ' :: ("NEAR".data ++ (' ' :: (('/' :: ds) ++ (' ' :: w2))))) =
      .ok [classifyTok w1, .nearWord, .term ('/' :: ds), classifyTok w2] := by
  have hbs : ∀ c ∈ '/' :: ds, isBareChar c = true := by
    intro c hc
    rcases List.mem_cons.mp hc with rfl | h
    · decide
    · exact digit_isBare c (List.all_eq_true.mp hdig c h)
  rw [tokQstep_bare w1 (' ' :: ("NEAR".data ++ (' ' :: (('/' :: ds) ++ (' ' :: w2)))))
      hw1 hb1 (Or.inr ⟨' ', _, rfl, by decide⟩),
    tokQstep_ws ' ' ("NEAR".data ++ (' ' :: (('/' :: ds) ++ (' ' :: w2)))) (by decide),
    tokQstep_bare ("NEAR".data) (' ' :: (('/' :: ds) ++ (' ' :: w2))) (by decide)
      (by decide) (Or.inr ⟨' ', _, rfl, by decide⟩),
    tokQstep_ws ' ' (('/' :: ds) ++ (' ' :: w2)) (by decide),
    tokQstep_bare ('/' :: ds) (' ' :: w2) (by simp) hbs
      (Or.inr ⟨' ', w2, rfl, by decide⟩),
    tokQstep_ws ' ' w2 (by decide),
    tokQ_bare_last w2 hw2 hb2,
    classifyTok_slashTerm ds,
    show classifyTok ("NEAR".data) = .nearWord from by decide]

theorem tokens_form3 (w1 w2 : List Char)
    (hw1 : w1 ≠ []) (hb1 : ∀ c ∈ w1, isBareChar c = true)
    (hw2 : w2 ≠ []) (hb2 : ∀ c ∈ w2, isBareChar c = true) :
    tokQ ((w1 ++ ' ' :: ("NEAR".data ++ (' ' :: w2))).length + 1)
        (w1 ++ ' ' :: ("NEAR".data ++ (' ' :: w2))) =
      .ok [classifyTok w1, .nearWord, classifyTok w2] := by
  rw [tokQstep_bare w1 (' ' :: ("NEAR".data ++ (' ' :: w2))) hw1 hb1
      (Or.inr ⟨' ', _, rfl, by decide⟩),
    tokQstep_ws ' ' ("NEAR".data ++ (' ' :: w2)) (by decide),
    tokQstep_bare ("NEAR".data) (' ' :: w2) (by decide) (by decide)
      (Or.inr ⟨' ', w2, rfl, by decide⟩),
    tokQstep_ws ' ' w2 (by decide),
    tokQ_bare_last w2 hw2 hb2,
    show classifyTok ("NEAR".data) = .nearWord from by decide]

theorem parse_run_near (f n : Nat) (a1 a2 : List Char)
    (h1 : a1.getLast? ≠ some '*') (h2 : a2.getLast? ≠ some '*') :
    parseOr (f + 1 + 1 + 1 + 1 + 1 + 1 + 1 + 1) [.term a1, .near n, .term a2] =
      .ok (.near n (.term (normalizeText a1)) (.term (normalizeText a2)), []) := by
  simp [parseOr, parseAnd, parseNear, parseUnary, parsePrimary, parseNearLoop,
    parseAndLoop, parseOrLoop, h1, h2]

theorem parse_run_word_slash (f : Nat) (a1 a2 ds : List Char)
    (h1 : a1.getLast? ≠ some '*') (h2 : a2.getLast? ≠ some '*')
    (hds : ds ≠ []) (hdig : ds.all isDigitCh = true) :
    parseOr (f + 1 + 1 + 1 + 1 + 1 + 1 + 1 + 1)
        [.term a1, .nearWord, .term ('/' :: ds), .term a2] =
      .ok (.near (parseDigits ds) (.term (normalizeText a1))
        (.term (normalizeText a2)), []) := by
  have hsl : isSlashDigits ('/' :: ds) = true := by
    rw [isSlashDigits]
    simp [hds, hdig]
  simp [parseOr, parseAnd, parseNear, parseUnary, parsePrimary, parseNearLoop,
    parseAndLoop, parseOrLoop, nearWordDistance, h1, h2, hsl]

theorem parse_run_word_plain (f : Nat) (a1 a2 : List Char)
    (h1 : a1.getLast? ≠ some '*') (h2 : a2.getLast? ≠ some '*')
    (hsl : isSlashDigits a2 = false) :
    parseOr (f + 1 + 1 + 1 + 1 + 1 + 1 + 1 + 1) [.term a1, .nearWord, .term a2] =
      .ok (.near 9 (.term (normalizeText a1)) (.term (normalizeText a2)), []) := by
  simp [parseOr, parseAnd, parseNear, parseUnary, parsePrimary, parseNearLoop,
    parseAndLoop, parseOrLoop, nearWordDistance, h1, h2, hsl]

/-- C5: `NEAR` distance determination, for queries of the shape
`w1 NEAR/ds w2`, `w1 NEAR /ds w2` and `w1 NEAR w2`, where `w1`, `w2` are bare
words lexed as plain terms and `ds` is a non-empty digit string denoting `n`:
the `NEAR/N` form produces a `NEAR` node with distance `n`; bare `NEAR`
followed by the bare token `/N` produces distance `n`; bare `NEAR` with no
following `/N` token produces distance exactly 9. -/
theorem c5_near_distance (w1 w2 ds : List Char) (n : Nat)
    (hw1ne : w1 ≠ []) (hw1b : ∀ c ∈ w1, isBareChar c = true)
    (hw1c : classifyTok w1 = .term w1) (hw1s : w1.getLast? ≠ some '*')
    (hw2ne : w2 ≠ []) (hw2b : ∀ c ∈ w2, isBareChar c = true)
    (hw2c : classifyTok w2 = .term w2) (hw2s : w2.getLast? ≠ some '*')
    (hw2sl : isSlashDigits w2 = false)
    (hds : ds ≠ []) (hdig : ds.all isDigitCh = true)
    (hn : parseDigits ds = n)
    (q1 q2 q3 : String)
    (hq1 : q1.data = w1 ++ ' ' :: ("NEAR/".data ++ ds ++ (' ' :: w2)))
    (hq2 : q2.data = w1 ++ ' ' :: ("NEAR".data ++ (' ' :: (('/' :: ds) ++ (' ' :: w2)))))
    (hq3 : q3.data = w1 ++ ' ' :: ("NEAR".data ++ (' ' :: w2))) :
    parseRule q1 = .ok (.near n (.term (normalizeText w1)) (.term (normalizeText w2))) ∧
    parseRule q2 = .ok (.near n (.term (normalizeText w1)) (.term (normalizeText w2))) ∧
    parseRule q3 = .ok (.near 9 (.term (normalizeText w1)) (.term (normalizeText w2))) := by
  subst hn
  refine ⟨?_, ?_, ?_⟩
  · have htok : tokenizeQuery q1 =
        .ok [QTok.term w1, QTok.near (parseDigits ds), QTok.term w2] := by
      rw [tokenizeQuery, hq1,
        tokens_form1 w1 w2 ds hw1ne hw1b hw2ne hw2b hds hdig, hw1c, hw2c]
    rw [parseRule, htok]
    dsimp only
    rw [show 8 * (([QTok.term w1, QTok.near (parseDigits ds),
        QTok.term w2] : List QTok).length + 2) = 32 + 1 + 1 + 1 + 1 + 1 + 1 + 1 + 1
        from rfl,
      parse_run_near 32 (parseDigits ds) w1 w2 hw1s hw2s]
    rfl
  · have htok : tokenizeQuery q2 =
        .ok [QTok.term w1, QTok.nearWord, QTok.term ('/' :: ds), QTok.term w2] := by
      rw [tokenizeQuery, hq2,
        tokens_form2 w1 w2 ds hw1ne hw1b hw2ne hw2b hdig, hw1c, hw2c]
    rw [parseRule, htok]
    dsimp only
    rw [show 8 * (([QTok.term w1, QTok.nearWord, QTok.term ('/' :: ds),
        QTok.term w2] : List QTok).length + 2) = 40 + 1 + 1 + 1 + 1 + 1 + 1 + 1 + 1
        from rfl,
      parse_run_word_slash 40 w1 w2 ds hw1s hw2s hds hdig]
    rfl
  · have htok : tokenizeQuery q3 =
        .ok [QTok.term w1, QTok.nearWord, QTok.term w2] := by
      rw [tokenizeQuery, hq3, tokens_form3 w1 w2 hw1ne hw1b hw2ne hw2b, hw1c, hw2c]
    rw [parseRule, htok]
    dsimp only
    rw [show 8 * (([QTok.term w1, QTok.nearWord,
        QTok.term w2] : List QTok).length + 2) = 32 + 1 + 1 + 1 + 1 + 1 + 1 + 1 + 1
        from rfl,
      parse_run_word_plain 32 w1 w2 hw1s hw2s hw2sl]
    rfl

theorem c5_witness :
    parseRule "a NEAR/5 b" = .ok (.near 5 (.term ['a']) (.term ['b'])) ∧
    parseRule "a NEAR /5 b" = .ok (.near 5 (.term ['a']) (.term ['b'])) ∧
    parseRule "a NEAR b" = .ok (.near 9 (.term ['a']) (.term ['b'])) :=
  c5_near_distance ['a'] ['b'] ['5'] 5
    (by decide) (by decide) (by decide) (by decide)
    (by decide) (by decide) (by decide) (by decide) (by decide)
    (by decide) (by decide) (by decide)
    "a NEAR/5 b" "a NEAR /5 b" "a NEAR b"
    (by decide) (by decide) (by decide)

end BrandQuery
